import Mathlib

/-!
Verification development for the MolDef-VRS-Translator repository: a shallow
embedding of the translation-and-normalization core (VRS Allele ↔ FHIR Allele
Profile) together with proofs of its specified properties.

The module `translators/vrs_json_pointers` is embedded directly from its
source. The translator, normalizer, SPDI parser, allele factory and
classification counter are not present under the repository sources (only
their callers and documentation are), so they are modelled from the
specification; each such definition carries a doc comment saying so.
-/

deriving instance DecidableEq for Except

namespace MolDef

/-- Core URL for VRS schemas, from `translators/vrs_json_pointers`. -/
def VRS_CORE_URL : String := "https://w3id.org/ga4gh/schema/vrs/2.0.1/json/"

/-- Core URL for GKS schemas, from `translators/vrs_json_pointers`. -/
def GKS_CORE_URL : String := "https://github.com/ga4gh/gks-core/blob/1.0/schema/gks-core/json/"

/-- `build_identifier` from `translators/vrs_json_pointers`: builds the mapping
from each field name to the fully qualified schema URL
`url ++ entity ++ "#properties/" ++ field`.  A Python dict comprehension over a
list preserves the list's order, so the dict is embedded as an association
list. -/
def build_identifier (url entity : String) (fields : List String) : List (String × String) :=
  fields.map (fun field => (field, url ++ entity ++ "#properties/" ++ field))

/-- `allele_identifiers` from `translators/vrs_json_pointers`. -/
def allele_identifiers : List (String × String) :=
  build_identifier VRS_CORE_URL ("Allele")
    ["id", "name", "aliases", "digest", "location", "state"]

/-- `literal_sequence_expression_identifiers` from `translators/vrs_json_pointers`. -/
def literal_sequence_expression_identifiers : List (String × String) :=
  build_identifier VRS_CORE_URL ("LiteralSequenceExpression")
    ["id", "name", "description", "aliases", "extensions", "sequence"]

/-- `expression_identifiers` from `translators/vrs_json_pointers`. -/
def expression_identifiers : List (String × String) :=
  build_identifier VRS_CORE_URL ("Expression")
    ["id", "extensions", "syntax", "value", "syntax_version"]

/-- `sequence_location_identifiers` from `translators/vrs_json_pointers`. -/
def sequence_location_identifiers : List (String × String) :=
  build_identifier VRS_CORE_URL ("SequenceLocation")
    ["id", "name", "description", "aliases", "extensions", "digest",
     "sequenceReference", "start", "end", "sequence"]

/-- `sequence_reference_identifiers` from `translators/vrs_json_pointers`. -/
def sequence_reference_identifiers : List (String × String) :=
  build_identifier VRS_CORE_URL ("SequenceReference")
    ["id", "name", "description", "aliases", "extensions", "refgetAccession",
     "residueAlphabet", "sequence", "moleculeType", "circular"]

/-- `sequence_string_identifier` from `translators/vrs_json_pointers`: the
standalone sequence-string identifier, not tied to a specific entity. -/
def sequence_string_identifier : List (String × String) :=
  [("id", VRS_CORE_URL ++ "sequenceString")]

/-- `extension_identifiers` from `translators/vrs_json_pointers`. -/
def extension_identifiers : List (String × String) :=
  build_identifier GKS_CORE_URL ("Extension")
    ["id", "extensions", "name", "aliases", "value", "description"]

/-- Modelled from the spec: the Allele State tagged union of spec section 3
(the translator and data-model sources are absent from the repository
sources). Literal carries an explicit residue string, Length-Only carries a
resulting length and optional repeat unit, Other is carried opaquely. -/
inductive VState where
  | literal (seq : String)
  | lengthOnly (len : Nat) (unit : Option String)
  | other (raw : String)
deriving DecidableEq, Repr

/-- Modelled from the spec: the VRS-side Allele of spec section 3 — a sequence
location (accession of the reference, half-open interval) together with an
allele state and optional identity metadata (identifier, aliases). The field
`stop` embeds the interval's `end` (a Lean keyword). -/
structure VrsAllele where
  id : Option String
  aliases : List String
  refgetAccession : String
  start : Nat
  stop : Nat
  state : VState
deriving DecidableEq, Repr

/-- Modelled from the spec: the state shapes the target (FHIR) schema can
carry — Literal and Length-Only (spec section 4.3 mapping table). -/
inductive FState where
  | literal (seq : String)
  | lengthOnly (len : Nat) (unit : Option String)
deriving DecidableEq, Repr

/-- Modelled from the spec: the FHIR Allele Profile record of spec section 3:
overlapping fields (identifier, aliases, context reference, location, state)
plus target-only schema-mandated metadata (resource type tag, profile URL) and
the attribute-level provenance annotations (`pointers`). -/
structure FhirAllele where
  resourceType : String
  profileUrl : String
  identifier : String
  aliases : List String
  contextAccession : Option String
  location : Option (Nat × Nat)
  state : FState
  pointers : List (String × String)
deriving DecidableEq, Repr

/-- Modelled from the spec: translator error taxonomy of spec section 7. -/
inductive TransError where
  | unclassifiedState
  | underspecifiedAllele
  | unsupportedState
deriving DecidableEq, Repr

/-- Modelled from the spec: the fixed constant resource type tag synthesized on
the target side (spec section 4.3: "synthesized with fixed constant values"). -/
def MOLDEF_RESOURCE_TYPE : String := "MolecularDefinition"

/-- Modelled from the spec: the fixed constant profile URL synthesized on the
target side. -/
def ALLELE_PROFILE_URL : String :=
  "http://hl7.org/fhir/StructureDefinition/allele"

/-- Modelled from the spec: the default-identifier convention — an identifier
synthesized as `"ref-to-" ++ accession` when none is supplied. -/
def defaultIdentifier (accession : String) : String :=
  "ref-to-" ++ accession

/-- Modelled from the spec: classification of a VRS state into the shape the
target schema supports; `none` exactly for Other states. -/
def classifyFState : VState → Option FState
  | .literal s => some (.literal s)
  | .lengthOnly n u => some (.lengthOnly n u)
  | .other _ => none

/-- Modelled from the spec: `translate_allele_to_fhir` of `VrsFhirAlleleTranslator`
(spec section 4.3): total table-driven field mapping VRS → FHIR.  Fails with
`UnclassifiedStateError` for Other states and returns no partial result;
synthesizes the target-only metadata with fixed constants and attaches the
provenance annotations verbatim from the fixed mapping. -/
def translate_allele_to_fhir (a : VrsAllele) : Except TransError FhirAllele :=
  match classifyFState a.state with
  | none => .error .unclassifiedState
  | some fs =>
      .ok { resourceType := MOLDEF_RESOURCE_TYPE
            profileUrl := ALLELE_PROFILE_URL
            identifier := a.id.getD (defaultIdentifier a.refgetAccession)
            aliases := a.aliases
            contextAccession := some a.refgetAccession
            location := some (a.start, a.stop)
            state := fs
            pointers := allele_identifiers }

/-- Modelled from the spec: the embedding of a target-side state back into the
VRS state union (direct copy of the overlapping fields). -/
def fstateToVrs : FState → VState
  | .literal s => .literal s
  | .lengthOnly n u => .lengthOnly n u

/-- Modelled from the spec: `translate_allele_to_vrs` of `VrsFhirAlleleTranslator`
(spec section 4.3): translates the overlapping field subset and discards every
target-only field without error; fails with `UnderspecifiedAlleleError` when
the target record lacks a resolvable context reference or a location. -/
def translate_allele_to_vrs (t : FhirAllele) : Except TransError VrsAllele :=
  match t.contextAccession, t.location with
  | some acc, some l =>
      .ok { id := some t.identifier
            aliases := t.aliases
            refgetAccession := acc
            start := l.1
            stop := l.2
            state := fstateToVrs t.state }
  | _, _ => .error .underspecifiedAllele

/-- Modelled from the spec: `create_fhir_allele` of the Allele Factory
(spec section 4.4 and the allele-factory notebook): builds a FHIR Allele from
five primitive inputs; when `idValue` is omitted the default identifier
`"ref-to-" ++ contextSequenceId` is synthesized. -/
def create_fhir_allele (contextSequenceId : String) (start stop : Nat)
    (alleleState : String) (idValue : Option String) : FhirAllele :=
  { resourceType := MOLDEF_RESOURCE_TYPE
    profileUrl := ALLELE_PROFILE_URL
    identifier := idValue.getD (defaultIdentifier contextSequenceId)
    aliases := []
    contextAccession := some contextSequenceId
    location := some (start, stop)
    state := .literal alleleState
    pointers := allele_identifiers }

/-- Modelled from the spec: the three state-tag classes counted by the
classification counter (spec section 4.5, pipeline documentation). -/
inductive StateTag where
  | literalTag
  | lengthOnlyTag
  | otherTag
deriving DecidableEq, Repr

/-- Modelled from the spec: classification of an allele's state tag
(spec section 4.5: Literal, Length-Only, Other). -/
def classify_state_type (a : VrsAllele) : StateTag :=
  match a.state with
  | .literal _ => .literalTag
  | .lengthOnly _ _ => .lengthOnlyTag
  | .other _ => .otherTag

/-- Modelled from the spec: the classification counter of spec section 4.5 —
for a collection of alleles, the per-state-tag counts (Literal, Length-Only,
Other), a pure aggregation. -/
def state_type_counts (xs : List VrsAllele) : Nat × Nat × Nat :=
  (xs.countP (fun a => classify_state_type a == StateTag.literalTag),
   xs.countP (fun a => classify_state_type a == StateTag.lengthOnlyTag),
   xs.countP (fun a => classify_state_type a == StateTag.otherTag))

/-- Modelled from the spec: parser error of spec section 4.2. -/
inductive SpdiError where
  | malformedExpression
deriving DecidableEq, Repr

/-- Modelled from the spec: the triple produced by the SPDI parser
(spec section 4.2): `(accession, start = position,
end = position + deletion_length, state = Literal(insertion))`. -/
structure SpdiTriple where
  accession : String
  start : Nat
  stop : Nat
  state : VState
deriving DecidableEq, Repr

/-- Splits a character list at each colon (the SPDI field separator);
structural counterpart of splitting the expression on `":"`. -/
def splitColons : List Char → List (List Char)
  | [] => [[]]
  | c :: rest =>
      if c = ':' then [] :: splitColons rest
      else
        match splitColons rest with
        | [] => [[c]]
        | g :: gs => (c :: g) :: gs

/-- Numeric value of a decimal digit string (most significant digit first). -/
def natFromDigits (l : List Char) : Nat :=
  l.foldl (fun a c => a * 10 + (c.toNat - 48)) 0

/-- Parses a nonempty all-digit character list as a natural number;
structural counterpart of `toNat?`. -/
def decToNat? (l : List Char) : Option Nat :=
  if l ≠ [] ∧ l.all Char.isDigit then some (natFromDigits l) else none

/-- Modelled from the spec: length of the SPDI deletion field, which is given
either as a length (all digits) or as a literal deleted sequence. -/
def spdiDelLength (del : List Char) : Nat :=
  match decToNat? del with
  | some n => n
  | none => del.length

/-- Modelled from the spec: the SPDI parser on the four colon-separated fields
`accession, position, deletion, insertion` (spec section 4.2); fails with
`MalformedExpressionError` on a non-numeric position. -/
def parse_spdi_fields (fields : List (List Char)) : Except SpdiError SpdiTriple :=
  match fields with
  | [acc, posStr, del, ins] =>
      match decToNat? posStr with
      | none => .error .malformedExpression
      | some pos =>
          .ok { accession := String.mk acc
                start := pos
                stop := pos + spdiDelLength del
                state := .literal (String.mk ins) }
  | _ => .error .malformedExpression

/-- Modelled from the spec: the SPDI parser on a textual expression
`accession:position:deletion:insertion`; fails with `MalformedExpressionError`
on wrong field count or non-numeric position. -/
def parse_spdi (expr : String) : Except SpdiError SpdiTriple :=
  parse_spdi_fields (splitColons expr.data)

/-- A reference base by 0-based position (`'N'` out of range); the resolved
sequence handle of the Sequence Context Adapter is embedded as the full
reference character list. -/
def refAt (ref : List Char) (i : Nat) : Char := ref.getD i 'N'

/-- A literal-state allele representation over a reference: a half-open
interval `[lo, hi)` together with the literal replacement sequence. -/
structure Rep where
  lo : Nat
  hi : Nat
  seq : List Char
deriving DecidableEq, Repr

/-- Condition for one suffix-trim step (spec section 4.1 step b): the state is
non-empty, the interval is non-empty, and the reference base at the interval's
trailing edge equals the state's last character. -/
def tCond (ref : List Char) (r : Rep) : Prop :=
  r.seq ≠ [] ∧ r.lo < r.hi ∧ refAt ref (r.hi - 1) = r.seq.getLastD 'N'

instance (ref : List Char) (r : Rep) : Decidable (tCond ref r) := by
  unfold tCond; exact inferInstance

/-- One suffix-trim step: drop the trailing reference base and the state's
last character. -/
def trimTrailStep (r : Rep) : Rep := ⟨r.lo, r.hi - 1, r.seq.dropLast⟩

/-- Fuelled suffix trim; every step decrements `hi`, so fuel `r.hi` is always
sufficient. -/
def trimTrailF (ref : List Char) : Nat → Rep → Rep
  | 0, r => r
  | fuel + 1, r => if tCond ref r then trimTrailF ref fuel (trimTrailStep r) else r

/-- Modelled from the spec: suffix trim of spec section 4.1 step b. -/
def trimTrail (ref : List Char) (r : Rep) : Rep := trimTrailF ref r.hi r

/-- Condition for one prefix-trim step (spec section 4.1 step b, symmetric):
the state is non-empty, the interval is non-empty, and the reference base at
the interval's leading edge equals the state's first character. -/
def lCond (ref : List Char) (r : Rep) : Prop :=
  r.seq ≠ [] ∧ r.lo < r.hi ∧ refAt ref r.lo = r.seq.headD 'N'

instance (ref : List Char) (r : Rep) : Decidable (lCond ref r) := by
  unfold lCond; exact inferInstance

/-- One prefix-trim step: drop the leading reference base and the state's
first character. -/
def trimLeadStep (r : Rep) : Rep := ⟨r.lo + 1, r.hi, r.seq.tail⟩

/-- Fuelled prefix trim; every step shortens the state, so fuel
`r.seq.length` is always sufficient. -/
def trimLeadF (ref : List Char) : Nat → Rep → Rep
  | 0, r => r
  | fuel + 1, r => if lCond ref r then trimLeadF ref fuel (trimLeadStep r) else r

/-- Modelled from the spec: prefix trim of spec section 4.1 step b. -/
def trimLead (ref : List Char) (r : Rep) : Rep := trimLeadF ref r.seq.length r

/-- Right rotation of a state sequence: the last character moves to the
front (used when an allele is shifted one base to the left). -/
def rotR : List Char → List Char
  | [] => []
  | a :: t => (a :: t).getLastD 'N' :: (a :: t).dropLast

/-- Condition for one left-shift step (spec section 4.1 step c): a deletion
shifts while the base before the interval equals the base at its trailing
edge; an insertion shifts while the base before the insertion point equals the
state's last character. -/
def sCond (ref : List Char) (r : Rep) : Prop :=
  (r.seq = [] ∧ 0 < r.lo ∧ r.lo < r.hi ∧ refAt ref (r.lo - 1) = refAt ref (r.hi - 1)) ∨
  (r.seq ≠ [] ∧ 0 < r.lo ∧ r.lo = r.hi ∧ refAt ref (r.lo - 1) = r.seq.getLastD 'N')

instance (ref : List Char) (r : Rep) : Decidable (sCond ref r) := by
  unfold sCond; exact inferInstance

/-- One left-shift step: move the interval one base to the left and rotate the
state accordingly. -/
def shiftStep (r : Rep) : Rep := ⟨r.lo - 1, r.hi - 1, rotR r.seq⟩

/-- Fuelled left shift; every step decrements `lo`, so fuel `r.lo` is always
sufficient. -/
def alignLeftF (ref : List Char) : Nat → Rep → Rep
  | 0, r => r
  | fuel + 1, r => if sCond ref r then alignLeftF ref fuel (shiftStep r) else r

/-- Modelled from the spec: left shift of spec section 4.1 step c, choosing
the left-most (smallest start) representation among all equivalent shifts. -/
def alignLeft (ref : List Char) (r : Rep) : Rep := alignLeftF ref r.lo r

/-- Modelled from the spec: the normalization pipeline for a Literal state
(spec section 4.1 step 2): suffix trim, then prefix trim, then left shift. -/
def normLit (ref : List Char) (r : Rep) : Rep :=
  alignLeft ref (trimLead ref (trimTrail ref r))

/-- Modelled from the spec: the state union as seen by the normalizer
(spec sections 3 and 4.1); Length-Only and Other states are not re-justified. -/
inductive NState where
  | literal (seq : List Char)
  | lengthOnly (len : Nat) (unit : Option (List Char))
  | otherState
deriving DecidableEq, Repr

/-- Modelled from the spec: a (location, state) pair as consumed by the
normalizer — a half-open interval `[lo, hi)` over the resolved reference plus
an allele state. -/
structure NAllele where
  lo : Nat
  hi : Nat
  st : NState
deriving DecidableEq, Repr

/-- Modelled from the spec: normalizer error taxonomy of spec section 7
(`UnresolvedReferenceError` arises inside the Sequence Context Adapter, which
is embedded here as an already-resolved reference list). -/
inductive NormError where
  | unresolvedReference
  | invalidInterval
deriving DecidableEq, Repr

/-- Modelled from the spec: the total normalization function on a
(location, state) pair (spec section 4.1): Literal states are trimmed and
left-shifted; Length-Only states are a no-op beyond interval validation;
Other states are carried opaquely and never normalized. -/
def normCore (ref : List Char) (a : NAllele) : NAllele :=
  match a.st with
  | .literal s =>
      let r := normLit ref ⟨a.lo, a.hi, s⟩
      ⟨r.lo, r.hi, .literal r.seq⟩
  | _ => a

/-- Modelled from the spec: `post_normalize_allele` of `AlleleNormalizer`
(spec section 4.1 contract): validates the interval, then produces the
canonical representation; fails with `InvalidIntervalError` if
`start > end`. -/
def post_normalize_allele (ref : List Char) (a : NAllele) : Except NormError NAllele :=
  if a.hi < a.lo then .error .invalidInterval else .ok (normCore ref a)

/-- The (location, state) pair a parsed SPDI triple contributes to the
normalizer (the parsers delegate interval/state construction to the shared
location and state types, spec section 4.2). -/
def spdiToNAllele (t : SpdiTriple) : NAllele :=
  ⟨t.start, t.stop,
    match t.state with
    | .literal s => .literal s.data
    | .lengthOnly n u => .lengthOnly n (u.map String.data)
    | .other _ => .otherState⟩

/-- The net sequence change described by a representation: the reference with
the interval's content replaced by the state sequence. -/
def applyRep (ref : List Char) (r : Rep) : List Char :=
  ref.take r.lo ++ r.seq ++ ref.drop r.hi

/-- Two representations describe the same net sequence change with the same
shape (equal deletion and insertion lengths): the equivalent shifted
representations of spec section 4.1 step c. -/
def equivRep (ref : List Char) (r y : Rep) : Prop :=
  r.hi - r.lo = y.hi - y.lo ∧ r.seq.length = y.seq.length ∧
    applyRep ref r = applyRep ref y

/-- A proper indel representation: a deletion (empty state, non-empty
interval) or an insertion (non-empty state, empty interval). -/
def indelProper (r : Rep) : Prop :=
  (r.seq = [] ∧ r.lo < r.hi) ∨ (r.seq ≠ [] ∧ r.lo = r.hi)

/-- An indel-shaped representation: empty state or empty interval. -/
def indelShape (r : Rep) : Prop := r.seq = [] ∨ r.lo = r.hi

/-- Well-formedness of a representation over a reference. -/
def wfRep (ref : List Char) (r : Rep) : Prop :=
  r.lo ≤ r.hi ∧ r.hi ≤ ref.length

instance (ref : List Char) (r : Rep) : Decidable (wfRep ref r) := by
  unfold wfRep; exact inferInstance

instance (r : Rep) : Decidable (indelProper r) := by
  unfold indelProper; exact inferInstance

instance (r : Rep) : Decidable (indelShape r) := by
  unfold indelShape; exact inferInstance

instance (ref : List Char) (r y : Rep) : Decidable (equivRep ref r y) := by
  unfold equivRep; exact inferInstance

/-- The default value of `getLastD` is irrelevant on a cons cell. -/
theorem getLastD_default_irrel (a : Char) (l : List Char) (x y : Char) :
    (a :: l).getLastD x = (a :: l).getLastD y := by
  rw [List.getLastD_cons, List.getLastD_cons]

/-- `getLastD` of a cons cell with non-empty tail is `getLastD` of the tail. -/
theorem getLastD_cons_of_ne_nil (a : Char) (l : List Char) (d : Char)
    (h : l ≠ []) : (a :: l).getLastD d = l.getLastD d := by
  cases l with
  | nil => exact absurd rfl h
  | cons b t => simp [List.getLastD_cons]

/-- After a full suffix trim the suffix-trim condition no longer holds. -/
theorem trimTrailF_not_cond (ref : List Char) (fuel : Nat) :
    ∀ r : Rep, r.hi ≤ fuel → ¬ tCond ref (trimTrailF ref fuel r) := by
  induction fuel with
  | zero =>
      intro r hle hc
      simp only [trimTrailF] at hc
      exact absurd hc.2.1 (by omega)
  | succ fuel ih =>
      intro r hle
      simp only [trimTrailF]
      split
      · rename_i hc
        exact ih _ (by simp only [trimTrailStep]; omega)
      · rename_i hc
        exact hc

/-- Suffix trim is the identity when its condition fails. -/
theorem trimTrailF_eq_self (ref : List Char) (fuel : Nat) (r : Rep)
    (h : ¬ tCond ref r) : trimTrailF ref fuel r = r := by
  cases fuel with
  | zero => rfl
  | succ fuel => simp only [trimTrailF, if_neg h]

/-- Suffix trim keeps the interval's start, never grows its end, and keeps
the interval well ordered. -/
theorem trimTrailF_inv (ref : List Char) (fuel : Nat) :
    ∀ r : Rep, (trimTrailF ref fuel r).lo = r.lo ∧
      (trimTrailF ref fuel r).hi ≤ r.hi ∧
      (r.lo ≤ r.hi → (trimTrailF ref fuel r).lo ≤ (trimTrailF ref fuel r).hi) := by
  induction fuel with
  | zero => exact fun r => ⟨rfl, le_refl _, fun h => h⟩
  | succ fuel ih =>
      intro r
      simp only [trimTrailF]
      split
      · rename_i hc
        obtain ⟨h1, h2, h3⟩ := ih (trimTrailStep r)
        refine ⟨h1, le_trans h2 (by simp only [trimTrailStep]; omega), fun _ => h3 ?_⟩
        have := hc.2.1
        simp only [trimTrailStep]
        omega
      · exact ⟨rfl, le_refl _, fun h => h⟩

/-- After a full prefix trim the prefix-trim condition no longer holds. -/
theorem trimLeadF_not_cond (ref : List Char) (fuel : Nat) :
    ∀ r : Rep, r.seq.length ≤ fuel → ¬ lCond ref (trimLeadF ref fuel r) := by
  induction fuel with
  | zero =>
      intro r hle hc
      simp only [trimLeadF] at hc
      exact hc.1 (List.eq_nil_of_length_eq_zero (by omega))
  | succ fuel ih =>
      intro r hle
      simp only [trimLeadF]
      split
      · rename_i hc
        apply ih
        have : r.seq ≠ [] := hc.1
        simp only [trimLeadStep, List.length_tail]
        have : 0 < r.seq.length := List.length_pos.mpr hc.1
        omega
      · rename_i hc
        exact hc

/-- Prefix trim is the identity when its condition fails. -/
theorem trimLeadF_eq_self (ref : List Char) (fuel : Nat) (r : Rep)
    (h : ¬ lCond ref r) : trimLeadF ref fuel r = r := by
  cases fuel with
  | zero => rfl
  | succ fuel => simp only [trimLeadF, if_neg h]

/-- Prefix trim keeps the interval's end and keeps the interval well
ordered. -/
theorem trimLeadF_inv (ref : List Char) (fuel : Nat) :
    ∀ r : Rep, (trimLeadF ref fuel r).hi = r.hi ∧
      (r.lo ≤ r.hi → (trimLeadF ref fuel r).lo ≤ (trimLeadF ref fuel r).hi) := by
  induction fuel with
  | zero => exact fun r => ⟨rfl, fun h => h⟩
  | succ fuel ih =>
      intro r
      simp only [trimLeadF]
      split
      · rename_i hc
        obtain ⟨h1, h2⟩ := ih (trimLeadStep r)
        refine ⟨h1, fun _ => h2 ?_⟩
        have := hc.2.1
        simp only [trimLeadStep]
        omega
      · exact ⟨rfl, fun h => h⟩

/-- Prefix trimming preserves the failure of the suffix-trim condition: it
drops leading characters only, leaving the state's last character and the
interval's end untouched. -/
theorem trimLeadF_pres_not_tCond (ref : List Char) (fuel : Nat) :
    ∀ r : Rep, ¬ tCond ref r → ¬ tCond ref (trimLeadF ref fuel r) := by
  induction fuel with
  | zero => exact fun r h => by simpa only [trimLeadF] using h
  | succ fuel ih =>
      intro r h
      simp only [trimLeadF]
      split
      · rename_i hc
        apply ih
        intro ht
        apply h
        obtain ⟨hc1, hc2, _⟩ := hc
        obtain ⟨ht1, ht2, ht3⟩ := ht
        simp only [trimLeadStep] at ht1 ht2 ht3
        refine ⟨hc1, hc2, ?_⟩
        obtain ⟨a, t, hseq⟩ : ∃ a t, r.seq = a :: t := by
          cases hs : r.seq with
          | nil => exact absurd hs hc1
          | cons a t => exact ⟨a, t, rfl⟩
        rw [hseq] at ht1 ht3 ⊢
        simp only [List.tail_cons] at ht1 ht3
        rw [getLastD_cons_of_ne_nil a t 'N' ht1]
        exact ht3
      · exact h

/-- A shift condition forces a positive interval start. -/
theorem sCond_pos {ref : List Char} {r : Rep} (h : sCond ref r) : 0 < r.lo := by
  rcases h with ⟨_, h, _⟩ | ⟨_, h, _⟩ <;> exact h

/-- After a full left shift the shift condition no longer holds. -/
theorem alignLeftF_not_cond (ref : List Char) (fuel : Nat) :
    ∀ r : Rep, r.lo ≤ fuel → ¬ sCond ref (alignLeftF ref fuel r) := by
  induction fuel with
  | zero =>
      intro r hle hc
      simp only [alignLeftF] at hc
      exact absurd (sCond_pos hc) (by omega)
  | succ fuel ih =>
      intro r hle
      simp only [alignLeftF]
      split
      · rename_i hc
        exact ih _ (by simp only [shiftStep]; omega)
      · rename_i hc
        exact hc

/-- Left shift is the identity when its condition fails. -/
theorem alignLeftF_eq_self (ref : List Char) (fuel : Nat) (r : Rep)
    (h : ¬ sCond ref r) : alignLeftF ref fuel r = r := by
  cases fuel with
  | zero => rfl
  | succ fuel => simp only [alignLeftF, if_neg h]

/-- One shift step always produces an indel-shaped representation. -/
theorem shiftStep_indelShape {ref : List Char} {r : Rep} (h : sCond ref r) :
    indelShape (shiftStep r) := by
  rcases h with ⟨h1, _⟩ | ⟨_, _, h3, _⟩
  · left
    simp [shiftStep, h1, rotR]
  · right
    simp [shiftStep, h3]

/-- Left shifting preserves indel shape. -/
theorem alignLeftF_pres_indelShape (ref : List Char) (fuel : Nat) :
    ∀ r : Rep, indelShape r → indelShape (alignLeftF ref fuel r) := by
  induction fuel with
  | zero => exact fun r h => by simpa only [alignLeftF] using h
  | succ fuel ih =>
      intro r h
      simp only [alignLeftF]
      split
      · rename_i hc
        exact ih _ (shiftStep_indelShape hc)
      · exact h

/-- A full left shift either does nothing or ends in an indel-shaped
representation. -/
theorem alignLeftF_eq_or_indel (ref : List Char) (fuel : Nat) (r : Rep) :
    alignLeftF ref fuel r = r ∨ indelShape (alignLeftF ref fuel r) := by
  cases fuel with
  | zero => exact Or.inl rfl
  | succ fuel =>
      simp only [alignLeftF]
      split
      · rename_i hc
        exact Or.inr (alignLeftF_pres_indelShape ref fuel _ (shiftStep_indelShape hc))
      · exact Or.inl rfl

/-- An indel-shaped representation admits no suffix trim. -/
theorem indelShape_not_tCond {ref : List Char} {r : Rep} (h : indelShape r) :
    ¬ tCond ref r := by
  intro hc
  rcases h with h | h
  · exact hc.1 h
  · exact absurd hc.2.1 (by omega)

/-- An indel-shaped representation admits no prefix trim. -/
theorem indelShape_not_lCond {ref : List Char} {r : Rep} (h : indelShape r) :
    ¬ lCond ref r := by
  intro hc
  rcases h with h | h
  · exact hc.1 h
  · exact absurd hc.2.1 (by omega)

/-- Left shifting keeps the interval well ordered and never grows its end. -/
theorem alignLeftF_inv (ref : List Char) (fuel : Nat) :
    ∀ r : Rep, (r.lo ≤ r.hi →
      (alignLeftF ref fuel r).lo ≤ (alignLeftF ref fuel r).hi) ∧
      (alignLeftF ref fuel r).hi ≤ r.hi := by
  induction fuel with
  | zero => exact fun r => ⟨fun h => h, le_refl _⟩
  | succ fuel ih =>
      intro r
      simp only [alignLeftF]
      split
      · rename_i hc
        obtain ⟨h1, h2⟩ := ih (shiftStep r)
        refine ⟨fun hle => h1 ?_, le_trans h2 (by simp [shiftStep])⟩
        simp only [shiftStep]
        omega
      · exact ⟨fun h => h, le_refl _⟩

/-- Wrapper form: the suffix-trim condition fails after a suffix trim. -/
theorem trimTrail_not_cond (ref : List Char) (r : Rep) :
    ¬ tCond ref (trimTrail ref r) :=
  trimTrailF_not_cond ref r.hi r (le_refl _)

/-- Wrapper form: suffix trim is the identity when its condition fails. -/
theorem trimTrail_eq_self (ref : List Char) (r : Rep) (h : ¬ tCond ref r) :
    trimTrail ref r = r :=
  trimTrailF_eq_self ref r.hi r h

/-- Wrapper form: the prefix-trim condition fails after a prefix trim. -/
theorem trimLead_not_cond (ref : List Char) (r : Rep) :
    ¬ lCond ref (trimLead ref r) :=
  trimLeadF_not_cond ref r.seq.length r (le_refl _)

/-- Wrapper form: prefix trim is the identity when its condition fails. -/
theorem trimLead_eq_self (ref : List Char) (r : Rep) (h : ¬ lCond ref r) :
    trimLead ref r = r :=
  trimLeadF_eq_self ref r.seq.length r h

/-- Wrapper form: prefix trimming preserves the failed suffix condition. -/
theorem trimLead_pres_not_tCond (ref : List Char) (r : Rep)
    (h : ¬ tCond ref r) : ¬ tCond ref (trimLead ref r) :=
  trimLeadF_pres_not_tCond ref r.seq.length r h

/-- Wrapper form: the shift condition fails after a full left shift. -/
theorem alignLeft_not_cond (ref : List Char) (r : Rep) :
    ¬ sCond ref (alignLeft ref r) :=
  alignLeftF_not_cond ref r.lo r (le_refl _)

/-- Wrapper form: left shift is the identity when its condition fails. -/
theorem alignLeft_eq_self (ref : List Char) (r : Rep) (h : ¬ sCond ref r) :
    alignLeft ref r = r :=
  alignLeftF_eq_self ref r.lo r h

/-- Wrapper form: a full left shift does nothing or ends indel-shaped. -/
theorem alignLeft_eq_or_indel (ref : List Char) (r : Rep) :
    alignLeft ref r = r ∨ indelShape (alignLeft ref r) :=
  alignLeftF_eq_or_indel ref r.lo r

/-- The normalization pipeline for Literal states is idempotent. -/
theorem normLit_fix (ref : List Char) (r : Rep) :
    normLit ref (normLit ref r) = normLit ref r := by
  have hznc : ¬ tCond ref (normLit ref r) ∧ ¬ lCond ref (normLit ref r) := by
    rcases alignLeft_eq_or_indel ref (trimLead ref (trimTrail ref r)) with heq | hind
    · have e : normLit ref r = trimLead ref (trimTrail ref r) := heq
      rw [e]
      exact ⟨trimLead_pres_not_tCond ref _ (trimTrail_not_cond ref r),
        trimLead_not_cond ref _⟩
    · have hi2 : indelShape (normLit ref r) := hind
      exact ⟨indelShape_not_tCond hi2, indelShape_not_lCond hi2⟩
  have hzs : ¬ sCond ref (normLit ref r) := alignLeft_not_cond ref _
  show alignLeft ref (trimLead ref (trimTrail ref (normLit ref r))) = normLit ref r
  rw [trimTrail_eq_self ref _ hznc.1, trimLead_eq_self ref _ hznc.2]
  exact alignLeft_eq_self ref _ hzs

/-- The normalization pipeline keeps the interval well ordered. -/
theorem normLit_lo_le_hi (ref : List Char) (r : Rep) (h : r.lo ≤ r.hi) :
    (normLit ref r).lo ≤ (normLit ref r).hi := by
  have h1 := (trimTrailF_inv ref r.hi r).2.2 h
  have h2 := (trimLeadF_inv ref (trimTrail ref r).seq.length (trimTrail ref r)).2 h1
  exact (alignLeftF_inv ref (trimLead ref (trimTrail ref r)).lo _).1 h2

/-- Normalization of a (location, state) pair is idempotent. -/
theorem normCore_fix (ref : List Char) (a : NAllele) :
    normCore ref (normCore ref a) = normCore ref a := by
  cases hst : a.st with
  | literal s =>
      simp only [normCore, hst]
      have := normLit_fix ref ⟨a.lo, a.hi, s⟩
      simp only [this]
  | lengthOnly n u => simp [normCore, hst]
  | otherState => simp [normCore, hst]

/-- Normalization keeps the interval well ordered. -/
theorem normCore_lo_le_hi (ref : List Char) (a : NAllele) (h : a.lo ≤ a.hi) :
    (normCore ref a).lo ≤ (normCore ref a).hi := by
  cases hst : a.st with
  | literal s =>
      simp only [normCore, hst]
      exact normLit_lo_le_hi ref ⟨a.lo, a.hi, s⟩ h
  | lengthOnly n u => simpa [normCore, hst] using h
  | otherState => simpa [normCore, hst] using h

/-- `refAt` is the actual element on in-range positions. -/
theorem refAt_eq_getElem (ref : List Char) (i : Nat) (h : i < ref.length) :
    refAt ref i = ref[i] := by
  simp [refAt, List.getD_eq_getElem?_getD, List.getElem?_eq_getElem h]

/-- Splitting off the last element of a positive-length take. -/
theorem take_pred_concat (ref : List Char) (n : Nat) (h0 : 0 < n)
    (h : n ≤ ref.length) :
    ref.take n = ref.take (n - 1) ++ [refAt ref (n - 1)] := by
  have hb : n - 1 < ref.length := by omega
  rw [refAt_eq_getElem ref _ hb]
  conv_lhs => rw [show n = n - 1 + 1 by omega]
  rw [List.take_succ, List.getElem?_eq_getElem hb]
  rfl

/-- Splitting off the first element of a drop at a positive position. -/
theorem drop_pred_cons (ref : List Char) (n : Nat) (h0 : 0 < n)
    (h : n ≤ ref.length) :
    ref.drop (n - 1) = refAt ref (n - 1) :: ref.drop n := by
  have hb : n - 1 < ref.length := by omega
  rw [refAt_eq_getElem ref _ hb, List.drop_eq_getElem_cons hb,
    show n - 1 + 1 = n by omega]

/-- `getLastD` agrees with `getLast` on non-empty lists. -/
theorem getLastD_eq_getLast (l : List Char) (h : l ≠ []) (d : Char) :
    l.getLastD d = l.getLast h := by
  rw [List.getLastD_eq_getLast?, List.getLast?_eq_getLast l h]
  rfl

/-- One left-shift step preserves the net sequence change. -/
theorem shiftStep_apply (ref : List Char) (r : Rep) (hs : sCond ref r)
    (hhi : r.hi ≤ ref.length) :
    applyRep ref (shiftStep r) = applyRep ref r := by
  rcases hs with ⟨hseq, hpos, hlth, heq⟩ | ⟨hne, hpos, hei, hlast⟩
  · simp only [applyRep, shiftStep, hseq, rotR, List.append_nil]
    rw [drop_pred_cons ref r.hi (by omega) hhi,
        take_pred_concat ref r.lo (by omega) (by omega), heq]
    simp [List.append_assoc]
  · obtain ⟨a, t, hseq⟩ := List.exists_cons_of_ne_nil hne
    have hble : r.lo ≤ ref.length := by omega
    simp only [applyRep, shiftStep, ← hei]
    rw [drop_pred_cons ref r.lo (by omega) hble,
        take_pred_concat ref r.lo (by omega) hble]
    rw [hseq] at hlast ⊢
    simp only [rotR]
    have hsplit : (a :: t).dropLast ++ [refAt ref (r.lo - 1)] = a :: t := by
      rw [hlast, getLastD_eq_getLast (a :: t) (by simp) 'N']
      exact List.dropLast_concat_getLast (by simp)
    conv_rhs => rw [← hsplit]
    rw [← hlast]
    simp [List.append_assoc]

/-- One left-shift step preserves interval width and state length. -/
theorem shiftStep_shape {ref : List Char} {r : Rep} (hs : sCond ref r) :
    (shiftStep r).hi - (shiftStep r).lo = r.hi - r.lo ∧
    (shiftStep r).seq.length = r.seq.length := by
  rcases hs with ⟨hseq, hpos, hlth, _⟩ | ⟨hne, hpos, hei, _⟩
  · exact ⟨by simp only [shiftStep]; omega, by simp [shiftStep, hseq, rotR]⟩
  · obtain ⟨a, t, hseq⟩ := List.exists_cons_of_ne_nil hne
    exact ⟨by simp only [shiftStep]; omega, by simp [shiftStep, hseq, rotR]⟩

/-- A full left shift preserves the net sequence change, the shape, and
well-formedness. -/
theorem alignLeftF_apply_shape (ref : List Char) (fuel : Nat) :
    ∀ r : Rep, r.lo ≤ r.hi → r.hi ≤ ref.length →
      applyRep ref (alignLeftF ref fuel r) = applyRep ref r ∧
      (alignLeftF ref fuel r).hi - (alignLeftF ref fuel r).lo = r.hi - r.lo ∧
      (alignLeftF ref fuel r).seq.length = r.seq.length ∧
      (alignLeftF ref fuel r).lo ≤ (alignLeftF ref fuel r).hi ∧
      (alignLeftF ref fuel r).hi ≤ ref.length := by
  induction fuel with
  | zero =>
      intro r h1 h2
      exact ⟨rfl, rfl, rfl, h1, h2⟩
  | succ fuel ih =>
      intro r h1 h2
      simp only [alignLeftF]
      split
      · rename_i hc
        have hpos := sCond_pos hc
        have hst1 : (shiftStep r).lo ≤ (shiftStep r).hi := by
          simp only [shiftStep]; omega
        have hst2 : (shiftStep r).hi ≤ ref.length := by
          simp only [shiftStep]; omega
        obtain ⟨g1, g2, g3, g4, g5⟩ := ih (shiftStep r) hst1 hst2
        obtain ⟨s1, s2⟩ := shiftStep_shape hc
        exact ⟨g1.trans (shiftStep_apply ref r hc h2), g2.trans s1,
          g3.trans s2, g4, g5⟩
      · exact ⟨rfl, rfl, rfl, h1, h2⟩

/-- Wrapper form of `alignLeftF_apply_shape` at the canonical fuel. -/
theorem alignLeft_apply_shape (ref : List Char) (r : Rep)
    (h1 : r.lo ≤ r.hi) (h2 : r.hi ≤ ref.length) :
    applyRep ref (alignLeft ref r) = applyRep ref r ∧
    (alignLeft ref r).hi - (alignLeft ref r).lo = r.hi - r.lo ∧
    (alignLeft ref r).seq.length = r.seq.length ∧
    (alignLeft ref r).lo ≤ (alignLeft ref r).hi ∧
    (alignLeft ref r).hi ≤ ref.length :=
  alignLeftF_apply_shape ref r.lo r h1 h2

/-- If a proper indel has a same-shape representation of the same net change
with a strictly smaller start, then it can be shifted one step left. -/
theorem sCond_of_smaller_equiv (ref : List Char) (z y : Rep)
    (hwz : wfRep ref z) (hwy : wfRep ref y) (hind : indelProper z)
    (hd : z.hi - z.lo = y.hi - y.lo) (hl : z.seq.length = y.seq.length)
    (happ : applyRep ref z = applyRep ref y) (hlt : y.lo < z.lo) :
    sCond ref z := by
  obtain ⟨hz1, hz2⟩ := hwz
  obtain ⟨hy1, hy2⟩ := hwy
  rcases hind with ⟨hseq, hlth⟩ | ⟨hne, hei⟩
  · left
    refine ⟨hseq, by omega, hlth, ?_⟩
    have hyseq : y.seq = [] :=
      List.eq_nil_of_length_eq_zero (by rw [← hl, hseq]; rfl)
    have hlen : (ref.take z.lo).length = z.lo := by
      rw [List.length_take]; omega
    have hleny : (ref.take y.lo).length = y.lo := by
      rw [List.length_take]; omega
    have e1 : (applyRep ref z)[z.lo - 1]? = ref[z.lo - 1]? := by
      simp only [applyRep, hseq, List.append_nil]
      rw [List.getElem?_append_left (by rw [hlen]; omega),
        List.getElem?_take_of_lt (by omega)]
    have e2 : (applyRep ref y)[z.lo - 1]? = ref[z.hi - 1]? := by
      simp only [applyRep, hyseq, List.append_nil]
      rw [List.getElem?_append_right (by rw [hleny]; omega), hleny,
        List.getElem?_drop]
      congr 1
      omega
    have e3 : ref[z.lo - 1]? = ref[z.hi - 1]? := by rw [← e1, happ, e2]
    show refAt ref (z.lo - 1) = refAt ref (z.hi - 1)
    simp only [refAt, List.getD_eq_getElem?_getD, e3]
  · right
    refine ⟨hne, by omega, hei, ?_⟩
    have hL : 0 < z.seq.length := List.length_pos.mpr hne
    have hyei : y.hi = y.lo := by omega
    have hlen : (ref.take z.lo).length = z.lo := by
      rw [List.length_take]; omega
    have hleny : (ref.take y.lo).length = y.lo := by
      rw [List.length_take]; omega
    have e1 : (applyRep ref z)[z.lo + z.seq.length - 1]? =
        z.seq[z.seq.length - 1]? := by
      simp only [applyRep]
      rw [List.getElem?_append_left
          (by rw [List.length_append, hlen]; omega),
        List.getElem?_append_right (by rw [hlen]; omega), hlen]
      congr 1
      omega
    have e2 : (applyRep ref y)[z.lo + z.seq.length - 1]? =
        ref[z.lo - 1]? := by
      simp only [applyRep]
      rw [List.getElem?_append_right
          (by rw [List.length_append, hleny, ← hl]; omega),
        List.length_append, hleny, ← hl, List.getElem?_drop]
      congr 1
      omega
    have e3 : z.seq[z.seq.length - 1]? = ref[z.lo - 1]? := by
      rw [← e1, happ, e2]
    have e4 : z.seq.getLastD 'N' = (z.seq[z.seq.length - 1]?).getD 'N' := by
      rw [List.getLastD_eq_getLast?, List.getLast?_eq_getElem?]
    show refAt ref (z.lo - 1) = z.seq.getLastD 'N'
    rw [e4, e3]
    simp [refAt, List.getD_eq_getElem?_getD]

/-- C5: for every proper indel allele with at least one equivalent shifted
representation, normalization returns a representation of the same net
sequence change and shape whose start is minimal among all interval/state
pairs of that shape describing the same net sequence change. -/
theorem C5_leftmost_canonical (ref : List Char) (x y : Rep)
    (hwx : wfRep ref x) (hind : indelProper x)
    (hex : ∃ w : Rep, w ≠ x ∧ equivRep ref x w)
    (hwy : wfRep ref y) (heqv : equivRep ref x y) :
    (normCore ref ⟨x.lo, x.hi, NState.literal x.seq⟩ =
      ⟨(normLit ref x).lo, (normLit ref x).hi,
        NState.literal (normLit ref x).seq⟩) ∧
    equivRep ref x (normLit ref x) ∧
    (normLit ref x).lo ≤ y.lo := by
  obtain ⟨hx1, hx2⟩ := hwx
  have hishape : indelShape x := by
    rcases hind with ⟨h1, _⟩ | ⟨_, h2⟩
    · exact Or.inl h1
    · exact Or.inr h2
  have hnl : normLit ref x = alignLeft ref x := by
    show alignLeft ref (trimLead ref (trimTrail ref x)) = alignLeft ref x
    rw [trimTrail_eq_self ref x (indelShape_not_tCond hishape),
        trimLead_eq_self ref x (indelShape_not_lCond hishape)]
  obtain ⟨g1, g2, g3, g4, g5⟩ := alignLeft_apply_shape ref x hx1 hx2
  refine ⟨rfl, ⟨?_, ?_, ?_⟩, ?_⟩
  · rw [hnl]
    exact g2.symm
  · rw [hnl]
    exact g3.symm
  · rw [hnl]
    exact g1.symm
  · by_contra hcon
    push_neg at hcon
    have hzind : indelProper (normLit ref x) := by
      rw [hnl]
      rcases hind with ⟨h1, h2⟩ | ⟨h1, h2⟩
      · refine Or.inl ⟨?_, ?_⟩
        · exact List.eq_nil_of_length_eq_zero (by rw [g3, h1]; rfl)
        · omega
      · refine Or.inr ⟨?_, ?_⟩
        · apply List.length_pos.mp
          rw [g3]
          exact List.length_pos.mpr h1
        · omega
    have hsz : sCond ref (normLit ref x) := by
      refine sCond_of_smaller_equiv ref (normLit ref x) y ?_ ⟨hwy.1, hwy.2⟩
        hzind ?_ ?_ ?_ hcon
      · rw [hnl]
        exact ⟨g4, g5⟩
      · rw [hnl, g2]
        exact heqv.1
      · rw [hnl, g3]
        exact heqv.2.1
      · rw [hnl, g1]
        exact heqv.2.2
    have hns : ¬ sCond ref (normLit ref x) := by
      rw [hnl]
      exact alignLeft_not_cond ref x
    exact hns hsz

/-- C5 witness: the insertion of an `A` into the run of a concrete reference
context is shifted to the left-most equivalent start. -/
theorem C5_leftmost_canonical_witness :
    (normCore ("CAAAT").data ⟨3, 3, NState.literal ['A']⟩ =
      ⟨(normLit ("CAAAT").data ⟨3, 3, ['A']⟩).lo,
        (normLit ("CAAAT").data ⟨3, 3, ['A']⟩).hi,
        NState.literal (normLit ("CAAAT").data ⟨3, 3, ['A']⟩).seq⟩) ∧
    equivRep ("CAAAT").data ⟨3, 3, ['A']⟩
      (normLit ("CAAAT").data ⟨3, 3, ['A']⟩) ∧
    (normLit ("CAAAT").data ⟨3, 3, ['A']⟩).lo ≤ (⟨2, 2, ['A']⟩ : Rep).lo :=
  C5_leftmost_canonical ("CAAAT").data ⟨3, 3, ['A']⟩ ⟨2, 2, ['A']⟩
    (by decide) (by decide) ⟨⟨2, 2, ['A']⟩, by decide, by decide⟩
    (by decide) (by decide)

/-- C2: the allele normalizer is idempotent — normalizing an already
normalized (location, state) pair returns it unchanged — and deterministic:
equal inputs give equal outputs. -/
theorem C2_normalize_idempotent (ref : List Char) (a b : NAllele)
    (h : post_normalize_allele ref a = Except.ok b) :
    post_normalize_allele ref b = Except.ok b ∧
    (∀ a2 : NAllele, a2 = a →
      post_normalize_allele ref a2 = post_normalize_allele ref a) := by
  refine ⟨?_, fun a2 h2 => by rw [h2]⟩
  unfold post_normalize_allele at h ⊢
  split at h
  · exact absurd h (by simp)
  · rename_i hle
    injection h with hb
    subst hb
    have hwf : ¬ (normCore ref a).hi < (normCore ref a).lo := by
      have := normCore_lo_le_hi ref a (by omega)
      omega
    rw [if_neg hwf, normCore_fix]

/-- C2 witness: normalizing the normalized deletion of scenario 1 (on a small
concrete reference context) returns it unchanged. -/
theorem C2_normalize_idempotent_witness :
    (post_normalize_allele ['A','C','G','T'] ⟨1, 1, NState.literal []⟩ =
      Except.ok ⟨1, 1, NState.literal []⟩) ∧
    (∀ a2 : NAllele, a2 = ⟨1, 2, NState.literal ['C']⟩ →
      post_normalize_allele ['A','C','G','T'] a2 =
      post_normalize_allele ['A','C','G','T'] ⟨1, 2, NState.literal ['C']⟩) :=
  C2_normalize_idempotent ['A','C','G','T'] ⟨1, 2, NState.literal ['C']⟩
    ⟨1, 1, NState.literal []⟩ (by decide)

/-- Re-embedding a target-side state into the VRS union and classifying it
again recovers the target-side state. -/
theorem classifyFState_fstateToVrs (fs : FState) :
    classifyFState (fstateToVrs fs) = some fs := by
  cases fs <;> rfl

/-- A classified VRS state is recovered from its target-side image. -/
theorem fstateToVrs_classifyFState {s : VState} {fs : FState}
    (h : classifyFState s = some fs) : fstateToVrs fs = s := by
  cases s <;> simp [classifyFState] at h <;> simp [← h, fstateToVrs]

/-- C1: for every well-formed VRS allele whose identifier follows the
default-identifier convention (`"ref-to-" ++ accession`), translating it to
the FHIR Allele Profile and back returns an allele structurally equal to the
original. -/
theorem C1_vrs_round_trip (a : VrsAllele) (fs : FState)
    (hwf : classifyFState a.state = some fs)
    (hid : a.id = some (defaultIdentifier a.refgetAccession)) :
    (translate_allele_to_fhir a).bind translate_allele_to_vrs = Except.ok a := by
  simp only [translate_allele_to_fhir, hwf, Except.bind, translate_allele_to_vrs,
    hid, Option.getD_some, fstateToVrs_classifyFState hwf]
  rw [← hid]

/-- C1 witness: the round trip on the substitution allele of scenario 3 built
with the default identifier. -/
theorem C1_vrs_round_trip_witness :
    (translate_allele_to_fhir ⟨some ("ref-to-NC_000002.12"), [], "NC_000002.12",
        27453448, 27453449, .literal "T"⟩).bind translate_allele_to_vrs =
      Except.ok ⟨some ("ref-to-NC_000002.12"), [], "NC_000002.12",
        27453448, 27453449, .literal "T"⟩ :=
  C1_vrs_round_trip _ (FState.literal "T") (by decide) (by decide)

/-- C4: for every target record with a context reference and a location, the
target → VRS → target composition succeeds (every target-only field is
discarded without error), leaves every overlapping field unchanged, and
differs from the original only in the target-only fields, which are
resynthesized with their fixed constant values. -/
theorem C4_asymmetric_field_loss (t : FhirAllele) (acc : String) (l : Nat × Nat)
    (hc : t.contextAccession = some acc) (hl : t.location = some l) :
    ∃ t2 : FhirAllele,
      (translate_allele_to_vrs t).bind translate_allele_to_fhir = Except.ok t2 ∧
      t2.identifier = t.identifier ∧ t2.aliases = t.aliases ∧
      t2.contextAccession = t.contextAccession ∧ t2.location = t.location ∧
      t2.state = t.state ∧
      t2.resourceType = MOLDEF_RESOURCE_TYPE ∧
      t2.profileUrl = ALLELE_PROFILE_URL ∧
      t2.pointers = allele_identifiers := by
  refine ⟨⟨MOLDEF_RESOURCE_TYPE, ALLELE_PROFILE_URL, t.identifier, t.aliases,
      some acc, some (l.1, l.2), t.state, allele_identifiers⟩,
    ?_, rfl, rfl, hc.symm, ?_, rfl, rfl, rfl, rfl⟩
  · simp [translate_allele_to_vrs, hc, hl, Except.bind, translate_allele_to_fhir,
      classifyFState_fstateToVrs]
  · simp [hl]

/-- C4 witness: the composition on a concrete target record carrying
non-constant target-only fields. -/
theorem C4_asymmetric_field_loss_witness :
    ∃ t2 : FhirAllele,
      (translate_allele_to_vrs ⟨"SomeOtherTag", "http://example.org/profile",
          "my-id", [], some ("NC_000002.12"), some (27453448, 27453449),
          .literal "T", []⟩).bind translate_allele_to_fhir = Except.ok t2 ∧
      t2.identifier = "my-id" ∧ t2.aliases = [] ∧
      t2.contextAccession = some ("NC_000002.12") ∧
      t2.location = some (27453448, 27453449) ∧
      t2.state = FState.literal "T" ∧
      t2.resourceType = MOLDEF_RESOURCE_TYPE ∧
      t2.profileUrl = ALLELE_PROFILE_URL ∧
      t2.pointers = allele_identifiers :=
  C4_asymmetric_field_loss _ ("NC_000002.12") (27453448, 27453449) rfl rfl

/-- C7: VRS → target translation succeeds exactly for Literal and Length-Only
states and fails with `UnclassifiedStateError` (a typed error value carrying
no partial result) exactly for Other states. -/
theorem C7_state_classification (a : VrsAllele) :
    ((∃ t, translate_allele_to_fhir a = Except.ok t) ↔
      (∃ s, a.state = VState.literal s) ∨
      (∃ n u, a.state = VState.lengthOnly n u)) ∧
    (translate_allele_to_fhir a = Except.error TransError.unclassifiedState ↔
      ∃ r, a.state = VState.other r) := by
  cases h : a.state <;> simp [translate_allele_to_fhir, classifyFState, h]

/-- C7 witness: an Other state is rejected with the typed error. -/
theorem C7_state_classification_witness :
    translate_allele_to_fhir ⟨none, [], "NC_000002.12", 0, 1,
        .other ("unrecognized")⟩ = Except.error TransError.unclassifiedState :=
  (C7_state_classification _).2.mpr ⟨"unrecognized", rfl⟩

/-- C8: construction without an explicit identifier synthesizes the default
identifier `"ref-to-" ++ accession`; a supplied identifier is copied
unchanged; and VRS → target translation emits the source identifier when
present and the default identifier otherwise. -/
theorem C8_default_identifier (acc st : String) (s e : Nat) (a : VrsAllele)
    (fs : FState) (hwf : classifyFState a.state = some fs) :
    ((create_fhir_allele acc s e st none).identifier = "ref-to-" ++ acc) ∧
    (∀ v, (create_fhir_allele acc s e st (some v)).identifier = v) ∧
    ((translate_allele_to_fhir a).map FhirAllele.identifier =
      Except.ok (a.id.getD ("ref-to-" ++ a.refgetAccession))) := by
  refine ⟨rfl, fun v => rfl, ?_⟩
  simp [translate_allele_to_fhir, hwf, Except.map, defaultIdentifier]

/-- C8 witness: the default and the user-supplied identifier on concrete
inputs. -/
theorem C8_default_identifier_witness :
    ((create_fhir_allele ("NC_000002.12") 27453448 27453449 ("T")
        none).identifier = "ref-to-" ++ "NC_000002.12") ∧
    (∀ v, (create_fhir_allele ("NC_000002.12") 27453448 27453449 ("T")
        (some v)).identifier = v) ∧
    ((translate_allele_to_fhir ⟨none, [], "NC_000002.12", 27453448, 27453449,
        .literal "T"⟩).map FhirAllele.identifier =
      Except.ok (Option.none.getD ("ref-to-" ++ "NC_000002.12"))) :=
  C8_default_identifier _ _ _ _ _ (FState.literal "T") (by decide)

/-- C9: for every collection of alleles the three per-state-tag counts sum to
the size of the collection; the counter is a pure aggregation over the list. -/
theorem C9_classification_counts (xs : List VrsAllele) :
    (state_type_counts xs).1 + (state_type_counts xs).2.1 +
      (state_type_counts xs).2.2 = xs.length := by
  induction xs with
  | nil => rfl
  | cons a t ih =>
      simp only [state_type_counts, List.countP_cons, List.length_cons] at *
      cases h : classify_state_type a <;> simp [h] <;> omega

/-- C10: `build_identifier` produces a mapping whose domain is exactly the
given field list, sending each field to `url ++ entity ++ "#properties/" ++
field`; distinct fields of the same entity receive distinct locator URLs. -/
theorem C10_build_identifier (url entity : String) (fields : List String)
    (hnd : fields.Nodup) :
    ((build_identifier url entity fields).map Prod.fst = fields) ∧
    (∀ f ∈ fields, (build_identifier url entity fields).lookup f =
        some (url ++ entity ++ "#properties/" ++ f)) ∧
    (∀ f g : String,
        url ++ entity ++ "#properties/" ++ f = url ++ entity ++ "#properties/" ++ g →
        f = g) := by
  refine ⟨by simp [build_identifier, List.map_map, Function.comp_def], ?_, ?_⟩
  · intro f hf
    induction fields with
    | nil => cases hf
    | cons a t ih =>
        simp only [build_identifier, List.map_cons, List.lookup]
        by_cases hfa : f = a
        · simp [hfa]
        · have hne : (f == a) = false := by simp [hfa]
          rcases List.mem_cons.mp hf with h | h
          · exact absurd h hfa
          · have := ih (List.Nodup.of_cons hnd) h
            simpa [build_identifier, List.lookup, hne] using this
  · intro f g h
    have hd := congrArg String.data h
    simp only [String.data_append, List.append_assoc] at hd
    have h1 := List.append_cancel_left hd
    have h2 := List.append_cancel_left h1
    have h3 := List.append_cancel_left h2
    cases f; cases g
    exact congrArg String.mk h3

/-- C10 witness: the mapping built for the Allele entity of the source. -/
theorem C10_build_identifier_witness :
    ((build_identifier VRS_CORE_URL ("Allele")
        ["id", "name", "aliases", "digest", "location", "state"]).map Prod.fst =
      ["id", "name", "aliases", "digest", "location", "state"]) ∧
    (∀ f ∈ ["id", "name", "aliases", "digest", "location", "state"],
      (build_identifier VRS_CORE_URL ("Allele")
        ["id", "name", "aliases", "digest", "location", "state"]).lookup f =
        some (VRS_CORE_URL ++ "Allele" ++ "#properties/" ++ f)) ∧
    (∀ f g : String,
      VRS_CORE_URL ++ "Allele" ++ "#properties/" ++ f =
        VRS_CORE_URL ++ "Allele" ++ "#properties/" ++ g → f = g) :=
  C10_build_identifier VRS_CORE_URL ("Allele")
    ["id", "name", "aliases", "digest", "location", "state"] (by decide)

/-- C3 counterexample: the claim that every annotation value of the fixed
mapping has the form `base ++ entity ++ "#properties/" ++ field` fails at the
standalone sequence-string identifier, whose value contains no `#` at all. -/
theorem C3_counterexample :
    ¬ ∀ p ∈ sequence_string_identifier, ∃ base entity field : String,
        p.2 = base ++ entity ++ "#properties/" ++ field := by
  intro h
  obtain ⟨b, e, f, hf⟩ :=
    h ("id", VRS_CORE_URL ++ "sequenceString") (List.mem_singleton.mpr rfl)
  have h1 : '#' ∈ (VRS_CORE_URL ++ "sequenceString").data := by
    rw [show (("id", VRS_CORE_URL ++ "sequenceString") :
        String × String).2 = VRS_CORE_URL ++ "sequenceString" from rfl] at hf
    rw [hf]
    have hm : '#' ∈ ("#properties/").data := by decide
    simp only [String.data_append, List.mem_append]
    tauto
  have h2 : '#' ∉ (VRS_CORE_URL ++ "sequenceString").data := by decide
  exact h2 h1

/-- C3 (amended): every annotation produced by `build_identifier` — every
entity-tied entry of the fixed mapping — is the locator
`url ++ entity ++ "#properties/" ++ field`; the standalone sequence-string
identifier is instead the locator `VRS_CORE_URL ++ "sequenceString"`; and the
annotations attached by the translator are the fixed mapping verbatim and are
not altered when a record round-trips. -/
theorem C3_pointer_provenance :
    (∀ url entity : String, ∀ fields : List String,
      ∀ p ∈ build_identifier url entity fields,
        p.2 = url ++ entity ++ "#properties/" ++ p.1) ∧
    (sequence_string_identifier = [("id", VRS_CORE_URL ++ "sequenceString")]) ∧
    (∀ (t : FhirAllele) (acc : String) (l : Nat × Nat),
      t.contextAccession = some acc → t.location = some l →
      t.pointers = allele_identifiers →
      ((translate_allele_to_vrs t).bind translate_allele_to_fhir).map
          FhirAllele.pointers = Except.ok t.pointers) := by
  refine ⟨?_, rfl, ?_⟩
  · intro url entity fields p hp
    simp only [build_identifier, List.mem_map] at hp
    obtain ⟨f, _, rfl⟩ := hp
    rfl
  · intro t acc l hc hl hp
    simp [translate_allele_to_vrs, hc, hl, Except.bind, translate_allele_to_fhir,
      classifyFState_fstateToVrs, Except.map, hp]

/-- C3 witness: the provenance facts instantiated on a concrete target
record carrying the canonical annotations. -/
theorem C3_pointer_provenance_witness :
    ((create_fhir_allele ("NC_000002.12") 27453448 27453449 ("T")
        none).pointers = allele_identifiers) ∧
    ((translate_allele_to_vrs (create_fhir_allele ("NC_000002.12") 27453448
        27453449 ("T") none)).bind translate_allele_to_fhir).map
        FhirAllele.pointers =
      Except.ok (create_fhir_allele ("NC_000002.12") 27453448 27453449 ("T")
        none).pointers :=
  ⟨rfl, C3_pointer_provenance.2.2 _ ("NC_000002.12") (27453448, 27453449)
    rfl rfl rfl⟩

/-- C6: the SPDI parser returns the triple `(accession, start = position,
end = position + deletion length, state = Literal(insertion))`; parsing the
scenario-4 expression yields exactly the directly built substitution allele of
scenario 3, hence the same normalized allele for every reference context. -/
theorem C6_spdi_parse (acc posStr del ins : List Char) (pos : Nat)
    (hpos : decToNat? posStr = some pos) :
    (parse_spdi_fields [acc, posStr, del, ins] =
      Except.ok ⟨String.mk acc, pos, pos + spdiDelLength del,
        .literal (String.mk ins)⟩) ∧
    (parse_spdi ("NC_000002.12:27453448:C:T") =
      Except.ok ⟨"NC_000002.12", 27453448, 27453449, VState.literal "T"⟩) ∧
    (∀ ref : List Char,
      post_normalize_allele ref (spdiToNAllele ⟨"NC_000002.12", 27453448,
        27453449, VState.literal "T"⟩) =
      post_normalize_allele ref ⟨27453448, 27453449, NState.literal ['T']⟩) := by
  refine ⟨?_, by decide, fun ref => rfl⟩
  simp [parse_spdi_fields, hpos]

/-- C6 witness: the parser on the concrete scenario-4 fields. -/
theorem C6_spdi_parse_witness :
    (parse_spdi_fields [['N','C'], ['2','7'], ['C'], ['T']] =
      Except.ok ⟨String.mk ['N','C'], 27, 27 + spdiDelLength ['C'],
        .literal (String.mk ['T'])⟩) ∧
    (parse_spdi ("NC_000002.12:27453448:C:T") =
      Except.ok ⟨"NC_000002.12", 27453448, 27453449, VState.literal "T"⟩) ∧
    (∀ ref : List Char,
      post_normalize_allele ref (spdiToNAllele ⟨"NC_000002.12", 27453448,
        27453449, VState.literal "T"⟩) =
      post_normalize_allele ref ⟨27453448, 27453449, NState.literal ['T']⟩) :=
  C6_spdi_parse ['N','C'] ['2','7'] ['C'] ['T'] 27 (by decide)

end MolDef
